import Mathlib

/-!
Verification of the kanri project-directory manager.

The development shallowly embeds the core of the program:

* `src/library.rs` — the `Library` collection (validation, scan filtering,
  `create` / `delete` / `rename` over an insertion-ordered index).  The
  `IndexMap` of the source is modelled as an ordered association list with
  the crate's `insert` / `swap_remove` / `retain` semantics.
* `src/commands/root.rs` — `resolve_project_name`, the command-level name
  validator, and the `handle_new` template-provisioning pipeline.
* `src/autocomplete.rs` — `suggest_completion` / `autocomplete`.
* `src/program.rs` — only the error taxonomy of the process runner is
  needed; a launch result is supplied by an oracle.

Filesystem and operating-system effects are made explicit: the set of
direct children of the projects root is a list of names, and every
fallible OS call (`create_dir`, `remove_dir_all`, `rename`, launching a
process) receives its outcome as a parameter (`none` = success,
`some k` = failure with `io::ErrorKind`-style kind `k`).  Strings are
handled at the level of their character lists so that every definition
evaluates by `decide`; Unicode case folding and whitespace are modelled
on their ASCII subsets, which covers every string the program and the
specification mention.
-/

deriving instance DecidableEq for Except

namespace Kanri

/-- ASCII lowercasing of one character (Rust `char::to_ascii_lowercase`,
also the ASCII fragment of `to_lowercase`). -/
def asciiLowerChar (c : Char) : Char :=
  if 'A' ≤ c ∧ c ≤ 'Z' then Char.ofNat (c.toNat + 32) else c

/-- Lowercase a whole string characterwise. -/
def asciiLower (s : String) : String :=
  ⟨s.data.map asciiLowerChar⟩

/-- Rust `str::eq_ignore_ascii_case`. -/
def eqIgnoreAsciiCase (a b : String) : Bool :=
  asciiLower a == asciiLower b

/-- Rust `str::starts_with` on the character list. -/
def strStartsWith (s pre : String) : Bool :=
  pre.data.isPrefixOf s.data

/-- Rust `str::trim` (ASCII whitespace model). -/
def strTrim (s : String) : String :=
  ⟨((s.data.dropWhile Char.isWhitespace).reverse.dropWhile Char.isWhitespace).reverse⟩

/-- Split a character list at every occurrence of `c` (keeping empty pieces). -/
def splitOnChar (c : Char) : List Char → List (List Char)
  | [] => [[]]
  | x :: t =>
    let r := splitOnChar c t
    if x == c then [] :: r
    else
      match r with
      | [] => [[x]]
      | h :: rt => (x :: h) :: rt

/-- Rust `str::lines`: split on a newline, dropping one trailing carriage
return per line.  (A trailing empty piece is kept; the only consumer
filters blank lines, so the difference is unobservable.) -/
def strLines (s : String) : List String :=
  (splitOnChar '\n' s.data).map fun cs =>
    match cs.getLast? with
    | some c => if c == '\r' then ⟨cs.dropLast⟩ else ⟨cs⟩
    | none => ⟨cs⟩

/-- The `IGNORED_NAMES` constant of `src/library.rs`. -/
def IGNORED_NAMES : List String :=
  [".", "..", "$RECYCLE.BIN", "System Volume Information", "msdownld.tmp",
    ".Trash-1000", "-"]

/-- The path-unsafe characters rejected by both validators. -/
def invalidChars : List Char :=
  ['/', '\\', ':', '*', '?', '"', '<', '>', '|']

/-- `validate_project_name` of `src/library.rs` (the non-Windows build:
the reserved-device-name block is behind `cfg(windows)`).  The `anyhow`
error is its message string. -/
def validate_project_name (name : String) : Except String Unit :=
  if name == "" then .error "Project name cannot be empty."
  else if name.data.any (fun c => invalidChars.contains c) then
    .error "Project name contains invalid characters."
  else if IGNORED_NAMES.any (fun r => eqIgnoreAsciiCase name r) then
    .error "This name is not allowed."
  else .ok ()

/-- `validate_project_name` of `src/commands/root.rs` (non-Windows build):
unlike the Library validator it checks only the literal `.` and `..`,
not the case-insensitive system-exclusion set. -/
def validate_project_name_cmd (name : String) : Except String Unit :=
  if name == "" then .error "Project name cannot be empty."
  else if name.data.any (fun c => invalidChars.contains c) then
    .error "Project name contains invalid characters."
  else if name == "." || name == ".." then
    .error "Project name cannot be a dot or a double dot."
  else .ok ()

/-- Kinds of `std::io::ErrorKind` the program inspects. -/
inductive IoKind
  | notFound
  | permissionDenied
  | alreadyExists
  | interrupted
  | notADirectory
  | other
  deriving DecidableEq

/-- Outcome of one OS call: `none` is success, `some k` is failure of kind `k`. -/
abbrev OsOutcome := Option IoKind

/-- `ProgramError` of `src/program.rs`. -/
inductive ProgramError
  | ProgramNotFound (program : String)
  | ProcessInterrupted
  | NoPermission
  | NonZeroExitCode (code : Int)
  | UnexpectedError (msg : String)
  deriving DecidableEq

/-- `LibraryError` of `src/library.rs`. -/
inductive LibraryError
  | AlreadyExists
  | DirectoryNotFound
  | PermissionDenied
  | NotADirectory
  | ProjectNotFound
  | InvalidPath
  | CloneFailed (source : ProgramError)
  | InvalidProjectName
  | CustomError (msg : String)
  | IoError (kind : IoKind)
  deriving DecidableEq

/-- The `IndexMap<String, PathBuf>` of the Library, as an ordered
association list of (name, path) pairs with unique keys. -/
abbrev Index := List (String × String)

/-- `IndexMap::contains_key`. -/
def containsKey (l : Index) (k : String) : Bool :=
  l.any fun p => p.1 == k

/-- `IndexMap::get`. -/
def getVal (l : Index) (k : String) : Option String :=
  (l.find? fun p => p.1 == k).map fun p => p.2

/-- `IndexMap::insert`: replace in place if the key is present, append
otherwise (insertion order preserved). -/
def idxInsert (l : Index) (k v : String) : Index :=
  match l with
  | [] => [(k, v)]
  | p :: t => if p.1 == k then (k, v) :: t else p :: idxInsert t k v

/-- `IndexMap::swap_remove`: remove the entry with key `k` by swapping
the last entry into its place and popping the end. -/
def swapRemove (l : Index) (k : String) : Index :=
  match l with
  | [] => []
  | x :: t =>
    if x.1 == k then
      match t.getLast? with
      | none => []
      | some last => last :: t.dropLast
    else x :: swapRemove t k

/-- `PathBuf::join` for one component. -/
def pathJoin (base name : String) : String :=
  base ++ "/" ++ name

/-- The `Library` struct of `src/library.rs`. -/
structure Library where
  projects : Index
  base_path : String
  deriving DecidableEq

/-- `Library::contains`. -/
def Library.contains (lib : Library) (name : String) : Bool :=
  containsKey lib.projects name

/-- `Library::get` (the `PathBuf` of the entry). -/
def Library.get (lib : Library) (name : String) : Option String :=
  getVal lib.projects name

/-- `Library::get_names`. -/
def Library.get_names (lib : Library) : List String :=
  lib.projects.map Prod.fst

/-- `Library::create`.  `fs` is the list of names occupying direct
children of `base_path`; `os` is the outcome of `fs::create_dir` if the
call is reached.  Returns (result, library after, children after),
mirroring the mutation of `&mut self` and of the disk. -/
def Library.create (lib : Library) (fs : List String) (name : String) (os : OsOutcome) :
    Except LibraryError Unit × Library × List String :=
  if fs.contains name then (.error .AlreadyExists, lib, fs)
  else
    match validate_project_name name with
    | .error e => (.error (.CustomError e), lib, fs)
    | .ok _ =>
      match os with
      | some .alreadyExists => (.error .AlreadyExists, lib, fs)
      | some .permissionDenied => (.error .PermissionDenied, lib, fs)
      | some k => (.error (.IoError k), lib, fs)
      | none =>
        (.ok (),
          { lib with projects := idxInsert lib.projects name (pathJoin lib.base_path name) },
          name :: fs)

/-- `Library::delete`: `fs::remove_dir_all` first (its `io::Error` is
converted by `#[from]` into `IoError`, with no further classification and
no name validation or index lookup), then `retain` drops the index entry. -/
def Library.delete (lib : Library) (fs : List String) (name : String) (os : OsOutcome) :
    Except LibraryError Unit × Library × List String :=
  match os with
  | some k => (.error (.IoError k), lib, fs)
  | none =>
    (.ok (),
      { lib with projects := lib.projects.filter fun p => p.1 != name },
      fs.erase name)

/-- `Library::rename`: membership checks, name validation, the
`fs::rename` call (outcome `os`), and only then the two index mutations
(`swap_remove` of the old entry, `insert` of the new one). -/
def Library.rename (lib : Library) (old_name new_name : String) (os : OsOutcome) :
    Except LibraryError Unit × Library :=
  if !containsKey lib.projects old_name then (.error .ProjectNotFound, lib)
  else if containsKey lib.projects new_name then (.error .AlreadyExists, lib)
  else
    match validate_project_name new_name with
    | .error e => (.error (.CustomError e), lib)
    | .ok _ =>
      let new_path := pathJoin lib.base_path new_name
      match os with
      | some .permissionDenied => (.error .PermissionDenied, lib)
      | some k => (.error (.IoError k), lib)
      | none =>
        (.ok (), { lib with projects := idxInsert (swapRemove lib.projects old_name) new_name new_path })

/-- One directory entry seen by the scan of `Library::collect_projects`. -/
structure DirEntry where
  name : String
  isDir : Bool
  deriving DecidableEq

/-- `Library::is_valid_project`. -/
def is_valid_project (entry : DirEntry) (display_hidden : Bool) : Bool :=
  if !display_hidden && strStartsWith entry.name "." then false
  else entry.isDir && !IGNORED_NAMES.contains entry.name

/-- `Library::get_ignored_paths` applied to the text of `.ignore`:
lines, trimmed, blank and `#`-prefixed lines dropped. -/
def get_ignored_paths (content : String) : List String :=
  ((strLines content).map strTrim).filter fun t => !(t == "") && !(strStartsWith t "#")

/-- `Library::collect_projects`: fold the directory entries in scan
order inserting the valid ones, then drop names listed in `.ignore`
when that file is present (`ignoreFile` is its content, `none` = absent). -/
def collect_projects (base_path : String) (entries : List DirEntry)
    (display_hidden : Bool) (ignoreFile : Option String) : Index :=
  let projects : Index := entries.foldl
    (fun acc e =>
      if is_valid_project e display_hidden then idxInsert acc e.name (pathJoin base_path e.name)
      else acc) []
  match ignoreFile with
  | none => projects
  | some content =>
    let paths := get_ignored_paths content
    projects.filter fun p => !paths.contains p.1

/-- `CompletionResult` of `src/autocomplete.rs`. -/
inductive CompletionResult
  | Found
  | FoundSimilar (name : String)
  | Nothing
  deriving DecidableEq

/-- `suggest_completion` of `src/autocomplete.rs`: exact (case-sensitive)
membership first, otherwise the first entry whose lowercase form starts
with the lowercase of `word`. -/
def suggest_completion (word : String) (words_list : List String) : CompletionResult :=
  if words_list.contains word then .Found
  else
    match words_list.find? (fun entry => strStartsWith (asciiLower entry) (asciiLower word)) with
    | some similar => .FoundSimilar similar
    | none => .Nothing

/-- `autocomplete` of `src/autocomplete.rs`.  `confirm` is the answer the
confirmation collaborator (`ask_dialog` of the absent `terminal.rs`,
modelled from the spec as a synchronous yes/no prompt) would give; it is
consulted only on a similar match when `always_accept` is off. -/
def autocomplete (word : String) (words_list : List String)
    (always_accept : Bool) (confirm : Bool) : Option String :=
  match suggest_completion word words_list with
  | .Found => some word
  | .FoundSimilar name =>
    if always_accept then some name
    else if confirm then some name else none
  | .Nothing => none

/-- The configuration fields `resolve_project_name` reads. -/
structure ResolveConfig where
  recent_enabled : Bool
  recent_project : String
  autocomplete_enabled : Bool
  always_accept : Bool
  deriving DecidableEq

/-- `resolve_project_name` of `src/commands/root.rs`. -/
def resolve_project_name (project_name : String) (cfg : ResolveConfig)
    (known_names : List String) (confirm : Bool) : Option String :=
  if project_name == "-" && cfg.recent_enabled then some cfg.recent_project
  else if cfg.autocomplete_enabled then
    autocomplete project_name known_names cfg.always_accept confirm
  else some project_name

/-- Name resolution as the specification words it (§4.4 resolution
order), written independently of the code path through
`CompletionResult`; compared against `resolve_project_name`. -/
def resolve_name_spec (typed : String) (cfg : ResolveConfig)
    (known_names : List String) (confirm : Bool) : Option String :=
  if typed == "-" && cfg.recent_enabled then some cfg.recent_project
  else if cfg.autocomplete_enabled then
    if known_names.contains typed then some typed
    else
      match known_names.find? (fun n => strStartsWith (asciiLower n) (asciiLower typed)) with
      | some m => if cfg.always_accept || confirm then some m else none
      | none => none
  else some typed

/-- Modelled from the spec: the template store collaborator
(`src/templates.rs` is declared in `lib.rs` but absent from the sources);
it supplies named ordered command lists with lookup-by-name
(`Templates::get_template`). -/
def get_template (store : List (String × List String)) (tname : String) :
    Option (List String) :=
  (store.find? fun p => p.1 == tname).map fun p => p.2

/-- The errors `handle_new` can return (its `anyhow` errors, by the
structured content of each message). -/
inductive NewError
  | InvalidName (msg : String)
  | LibError (e : LibraryError)
  | TemplateNotFound (tname : String)
  | ShellNotConfigured
  | CleanupFailed (cleanup : LibraryError)
  | CommandFailed (cmd : String) (e : ProgramError)
  deriving DecidableEq

/-- The command loop of `handle_new` (src/commands/root.rs): run the
template commands in order; `outcome j` is `launch_program`'s result for
the command at index `j` (the loop is blocking, `fork_mode = false`).
On the first failure the remaining commands are skipped, the rollback
`delete` runs (outcome `delOs`), and — exactly as the source's
`.map_err(..)?` does — a failing rollback returns only the cleanup
error.  The last component is the trace of commands actually launched. -/
def run_template (lib : Library) (fs : List String) (name : String)
    (cmds : List String) (outcome : Nat → Option ProgramError) (delOs : OsOutcome)
    (i : Nat) : Except NewError Unit × Library × List String × List String :=
  match cmds with
  | [] => (.ok (), lib, fs, [])
  | c :: rest =>
    match outcome i with
    | none =>
      let r := run_template lib fs name rest outcome delOs (i + 1)
      (r.1, r.2.1, r.2.2.1, c :: r.2.2.2)
    | some e =>
      match Library.delete lib fs name delOs with
      | (.error ce, lib', fs') => (.error (.CleanupFailed ce), lib', fs', [c])
      | (.ok _, lib', fs') => (.error (.CommandFailed c e), lib', fs', [c])

/-- `handle_new` of `src/commands/root.rs`, from the point where the
configuration, the Library and the typed name are in hand: command-level
validation, `Library::create`, then — only if a template was requested —
template lookup, the shell check, and the command loop.  The profile is
assumed found (`get_profile` errors are out of scope); `shell` is its
shell program.  Returns (result, library, children of the root, trace of
launched commands). -/
def handle_new (lib : Library) (fs : List String) (name : String)
    (template_arg : Option String) (store : List (String × List String))
    (shell : String) (createOs : OsOutcome) (outcome : Nat → Option ProgramError)
    (delOs : OsOutcome) : Except NewError Unit × Library × List String × List String :=
  match validate_project_name_cmd name with
  | .error e => (.error (.InvalidName e), lib, fs, [])
  | .ok _ =>
    match Library.create lib fs name createOs with
    | (.error e, lib', fs') => (.error (.LibError e), lib', fs', [])
    | (.ok _, lib1, fs1) =>
      match template_arg with
      | none => (.ok (), lib1, fs1, [])
      | some tname =>
        match get_template store tname with
        | none => (.error (.TemplateNotFound tname), lib1, fs1, [])
        | some template =>
          if shell == "" then (.error .ShellNotConfigured, lib1, fs1, [])
          else run_template lib1 fs1 name template outcome delOs 0

/-! ### Lemmas about the index model -/

theorem containsKey_iff_mem_keys (l : Index) (k : String) :
    containsKey l k = true ↔ k ∈ l.map Prod.fst := by
  simp only [containsKey, List.any_eq_true, beq_iff_eq, List.mem_map]

theorem keys_idxInsert (l : Index) (k v : String) :
    (idxInsert l k v).map Prod.fst = if containsKey l k then l.map Prod.fst
      else l.map Prod.fst ++ [k] := by
  induction l with
  | nil => simp [idxInsert, containsKey]
  | cons p t ih =>
    by_cases h : p.1 = k
    · simp [idxInsert, containsKey, h]
    · have h' : (p.1 == k) = false := by simp [h]
      simp only [idxInsert, h', Bool.false_eq_true, if_false, List.map_cons, containsKey,
        List.any_cons, Bool.or_eq_true]
      simp only [containsKey] at ih
      by_cases hc : t.any (fun q => q.1 == k) = true
      · simp [hc, ih]
      · simp only [Bool.not_eq_true] at hc
        simp [hc, ih]

theorem containsKey_idxInsert_self (l : Index) (k v : String) :
    containsKey (idxInsert l k v) k = true := by
  induction l with
  | nil => simp [idxInsert, containsKey]
  | cons p t ih =>
    by_cases h : p.1 = k
    · simp [idxInsert, containsKey, h]
    · have ih' : ∃ x, (k, x) ∈ idxInsert t k v := by simpa [containsKey] using ih
      simp [idxInsert, containsKey, h, ih']

theorem getVal_idxInsert (l : Index) (k v : String) :
    getVal (idxInsert l k v) k = some v := by
  induction l with
  | nil => simp [idxInsert, getVal]
  | cons p t ih =>
    by_cases h : p.1 = k
    · simp [idxInsert, getVal, h]
    · have h' : (p.1 == k) = false := by simp [h]
      simp [idxInsert, getVal, h', List.find?] at ih ⊢
      exact ih

theorem idxInsert_of_not_contains (l : Index) (k v : String)
    (h : containsKey l k = false) : idxInsert l k v = l ++ [(k, v)] := by
  induction l with
  | nil => simp [idxInsert]
  | cons p t ih =>
    simp only [containsKey, List.any_cons, Bool.or_eq_false_iff] at h
    simp [idxInsert, h.1, ih (by simp [containsKey, h.2])]

theorem containsKey_filter (l : Index) (f : String → Bool) (n : String) :
    containsKey (l.filter fun p => f p.1) n = true ↔
      containsKey l n = true ∧ f n = true := by
  simp only [containsKey, List.any_eq_true, List.mem_filter, beq_iff_eq]
  constructor
  · rintro ⟨p, ⟨hl, hf⟩, rfl⟩; exact ⟨⟨p, hl, rfl⟩, hf⟩
  · rintro ⟨⟨p, hl, rfl⟩, hf⟩; exact ⟨p, ⟨hl, hf⟩, rfl⟩

theorem filter_ne_of_not_contains (l : Index) (name : String)
    (h : containsKey l name = false) : (l.filter fun p => p.1 != name) = l := by
  apply List.filter_eq_self.2
  intro p hp
  simp only [containsKey, List.any_eq_false, beq_iff_eq] at h
  simp [bne_iff_ne, h p hp]

/-! ### C3: rename leaves the index untouched on any error -/

/-- C3: for a library with `old` present and `new` absent, every error
return of `rename old new` — validation failure or a failing underlying
filesystem rename alike — leaves the index exactly as it was:
`contains old` still holds, `contains new` still fails, no partial state. -/
theorem rename_error_preserves_index (lib : Library) (old_name new_name : String)
    (os : OsOutcome) (e : LibraryError)
    (ho : lib.contains old_name = true) (hn : lib.contains new_name = false)
    (he : (Library.rename lib old_name new_name os).1 = .error e) :
    (Library.rename lib old_name new_name os).2 = lib ∧
    (Library.rename lib old_name new_name os).2.contains old_name = true ∧
    (Library.rename lib old_name new_name os).2.contains new_name = false := by
  simp only [Library.contains] at ho hn
  have h2 : (Library.rename lib old_name new_name os).2 = lib := by
    unfold Library.rename
    simp only [ho, hn, Bool.not_true, Bool.false_eq_true, if_false]
    cases hv : validate_project_name new_name with
    | error msg => simp
    | ok u =>
      cases os with
      | none =>
        exfalso
        unfold Library.rename at he
        simp [ho, hn, hv] at he
      | some k => cases k <;> simp
  exact ⟨h2, by simpa [Library.contains, h2], by simpa [Library.contains, h2]⟩

/-- Witness for C3 at a concrete failing rename (the OS rename call is
denied): the index is returned unchanged. -/
theorem rename_error_preserves_index_witness :
    (⟨[("a", "/p/a")], "/p"⟩ : Library).contains "a" = true ∧
    (⟨[("a", "/p/a")], "/p"⟩ : Library).contains "b" = false ∧
    (Library.rename ⟨[("a", "/p/a")], "/p"⟩ "a" "b" (some .permissionDenied)).2
      = ⟨[("a", "/p/a")], "/p"⟩ :=
  ⟨by decide, by decide,
    (rename_error_preserves_index ⟨[("a", "/p/a")], "/p"⟩ "a" "b"
      (some .permissionDenied) .PermissionDenied (by decide) (by decide) (by decide)).1⟩

/-! ### C5: create, get, contains, and non-idempotence -/

/-- C5: for a valid name `N` present neither in the index nor on disk,
`create N` succeeds (project directory created), `get N` returns
`base_path/N`, `contains N` holds; a second `create N` fails with
`AlreadyExists` (whatever the OS would have answered) and changes
neither the filesystem nor the index. -/
theorem create_get_contains_and_second_create (lib : Library) (fs : List String)
    (N : String) (lib1 : Library) (fs1 : List String) (res : Except LibraryError Unit)
    (hv : validate_project_name N = .ok ())
    (hidx : lib.contains N = false) (hfs : fs.contains N = false)
    (hrun : Library.create lib fs N none = (res, lib1, fs1)) :
    res = .ok () ∧
    lib1.get N = some (pathJoin lib.base_path N) ∧
    lib1.contains N = true ∧
    fs1 = N :: fs ∧
    ∀ os2, Library.create lib1 fs1 N os2 = (.error .AlreadyExists, lib1, fs1) := by
  have hstep : Library.create lib fs N none =
      (.ok (), { lib with projects := idxInsert lib.projects N (pathJoin lib.base_path N) },
        N :: fs) := by
    have hmem : N ∉ fs := by simpa using hfs
    unfold Library.create
    simp [hmem, hv]
  rw [hstep] at hrun
  obtain ⟨h1, h2, h3⟩ : res = .ok () ∧
      lib1 = { lib with projects := idxInsert lib.projects N (pathJoin lib.base_path N) } ∧
      fs1 = N :: fs := by
    have := hrun.symm
    exact ⟨congrArg Prod.fst this, congrArg (fun x => x.2.1) this, congrArg (fun x => x.2.2) this⟩
  subst h2 h3
  refine ⟨h1, ?_, ?_, rfl, ?_⟩
  · simpa [Library.get] using getVal_idxInsert lib.projects N (pathJoin lib.base_path N)
  · simpa [Library.contains] using
      containsKey_idxInsert_self lib.projects N (pathJoin lib.base_path N)
  · intro os2
    have hc : (N :: fs).contains N = true := by simp
    simp [Library.create, hc]

/-- Witness for C5 at the concrete name `my-project_1` on an empty library. -/
theorem create_get_contains_and_second_create_witness :
    (Library.create ⟨[], "/p"⟩ [] "my-project_1" none).1 = .ok () ∧
    (Library.create ⟨[], "/p"⟩ [] "my-project_1" none).2.1.get "my-project_1"
      = some "/p/my-project_1" ∧
    Library.create (Library.create ⟨[], "/p"⟩ [] "my-project_1" none).2.1
        (Library.create ⟨[], "/p"⟩ [] "my-project_1" none).2.2 "my-project_1" none
      = (.error .AlreadyExists, (Library.create ⟨[], "/p"⟩ [] "my-project_1" none).2.1,
          (Library.create ⟨[], "/p"⟩ [] "my-project_1" none).2.2) := by
  have h := create_get_contains_and_second_create ⟨[], "/p"⟩ [] "my-project_1"
    (Library.create ⟨[], "/p"⟩ [] "my-project_1" none).2.1
    (Library.create ⟨[], "/p"⟩ [] "my-project_1" none).2.2
    (Library.create ⟨[], "/p"⟩ [] "my-project_1" none).1
    (by decide) (by decide) (by decide) rfl
  exact ⟨h.1, h.2.1, h.2.2.2.2 none⟩

/-! ### C10: delete never validates, never looks up, classifies I/O failure -/

/-- C10: `delete name` never returns `ProjectNotFound` and performs no
validation or membership check: a failing `remove_dir_all` surfaces as
the wrapped I/O error with the library and disk untouched, while a
successful removal drops the index entry when present — returning `Ok`
even for names that were never in the index, in which case the index is
unchanged. -/
theorem delete_contract (lib : Library) (fs : List String) (name : String) :
    (∀ k, Library.delete lib fs name (some k) = (.error (.IoError k), lib, fs)) ∧
    ((Library.delete lib fs name none).1 = .ok ()) ∧
    ((Library.delete lib fs name none).2.1.contains name = false) ∧
    ((Library.delete lib fs name none).2.2 = fs.erase name) ∧
    (lib.contains name = false → (Library.delete lib fs name none).2.1 = lib) ∧
    (∀ os, (Library.delete lib fs name os).1 ≠ .error .ProjectNotFound) ∧
    (∀ os msg, (Library.delete lib fs name os).1 ≠ .error (.CustomError msg)) := by
  refine ⟨fun k => rfl, rfl, ?_, rfl, ?_, ?_, ?_⟩
  · simp only [Library.delete, Library.contains]
    rw [Bool.eq_false_iff]
    intro hc
    have := (containsKey_filter lib.projects (fun s => s != name) name).1 hc
    simp [bne_iff_ne] at this
  · intro h
    simp only [Library.delete]
    have := filter_ne_of_not_contains lib.projects name (by simpa [Library.contains] using h)
    simp [this]
  · intro os
    cases os with
    | none => simp [Library.delete]
    | some k => simp [Library.delete]
  · intro os msg
    cases os with
    | none => simp [Library.delete]
    | some k => simp [Library.delete]

/-- Witness for C10: deleting a name that was never in the index still
returns `Ok` and leaves the index unchanged; a denied removal returns the
wrapped I/O error. -/
theorem delete_contract_witness :
    (Library.delete ⟨[("x", "/p/x")], "/p"⟩ ["x"] "y" none).1 = .ok () ∧
    (Library.delete ⟨[("x", "/p/x")], "/p"⟩ ["x"] "y" none).2.1 = ⟨[("x", "/p/x")], "/p"⟩ ∧
    Library.delete ⟨[("x", "/p/x")], "/p"⟩ ["x"] "y" (some .permissionDenied)
      = (.error (.IoError .permissionDenied), ⟨[("x", "/p/x")], "/p"⟩, ["x"]) := by
  have h := delete_contract ⟨[("x", "/p/x")], "/p"⟩ ["x"] "y"
  exact ⟨h.2.1, h.2.2.2.2.1 (by decide), h.1 .permissionDenied⟩

/-! ### C7: validator scope and the error variant used on rejection -/

/-- C7 counterexample: the validator rejects `a/b` and `x:y`, yet
`create` and `rename` fail with the `CustomError` variant carrying the
validator message — not with `InvalidProjectName`; moreover in `create`
the on-disk existence check precedes validation, so an invalid name that
already occupies the disk yields `AlreadyExists` instead. -/
theorem create_rename_invalid_name_counterexample :
    (Library.create ⟨[], "/p"⟩ [] "a/b" none).1
        = .error (.CustomError "Project name contains invalid characters.") ∧
    (Library.create ⟨[], "/p"⟩ [] "a/b" none).1 ≠ .error .InvalidProjectName ∧
    (Library.rename ⟨[("a", "/p/a")], "/p"⟩ "a" "x:y" none).1
        = .error (.CustomError "Project name contains invalid characters.") ∧
    (Library.rename ⟨[("a", "/p/a")], "/p"⟩ "a" "x:y" none).1 ≠ .error .InvalidProjectName ∧
    (Library.create ⟨[], "/p"⟩ ["."] "." none).1 = .error .AlreadyExists := by
  decide

/-- C7 (amended): the validator rejects the empty string, any name with a
path-unsafe character, the tokens `.` and `..`, and case-insensitive
matches of the system-exclusion set, and accepts `my-project_1`; when it
rejects the name given to `create` (the name not already occupying the
disk — the existence check runs first) or the destination given to
`rename`, the operation fails with `CustomError` carrying the validator
message and touches neither the filesystem nor the index. -/
theorem validator_rejections_and_mutation_guard :
    (validate_project_name "" ≠ .ok ()) ∧
    (∀ name : String, name.data.any (fun c => invalidChars.contains c) = true →
      validate_project_name name ≠ .ok ()) ∧
    (validate_project_name "." ≠ .ok ()) ∧
    (validate_project_name ".." ≠ .ok ()) ∧
    (∀ name r, r ∈ IGNORED_NAMES → eqIgnoreAsciiCase name r = true →
      validate_project_name name ≠ .ok ()) ∧
    (validate_project_name "my-project_1" = .ok ()) ∧
    (∀ (lib : Library) (fs : List String) (name msg : String) (os : OsOutcome),
      validate_project_name name = .error msg → fs.contains name = false →
      Library.create lib fs name os = (.error (.CustomError msg), lib, fs)) ∧
    (∀ (lib : Library) (old_name new_name msg : String) (os : OsOutcome),
      lib.contains old_name = true → lib.contains new_name = false →
      validate_project_name new_name = .error msg →
      Library.rename lib old_name new_name os = (.error (.CustomError msg), lib)) := by
  refine ⟨by decide, ?_, by decide, by decide, ?_, by decide, ?_, ?_⟩
  · intro name h hok
    unfold validate_project_name at hok
    split at hok
    · simp at hok
    · simp [h] at hok
  · intro name r hr heq hok
    have hany : IGNORED_NAMES.any (fun x => eqIgnoreAsciiCase name x) = true :=
      List.any_eq_true.2 ⟨r, hr, heq⟩
    unfold validate_project_name at hok
    split at hok
    · simp at hok
    · split at hok
      · simp at hok
      · simp [hany] at hok
  · intro lib fs name msg os hval hfs
    have hmem : name ∉ fs := by simpa using hfs
    unfold Library.create
    simp [hmem, hval]
  · intro lib old_name new_name msg os ho hn hval
    simp only [Library.contains] at ho hn
    unfold Library.rename
    simp [ho, hn, hval]

/-- Witness for the amended C7: a rejected `create` name and a rejected
`rename` destination each produce `CustomError` with the library and the
disk untouched. -/
theorem validator_rejections_and_mutation_guard_witness :
    Library.create ⟨[], "/p"⟩ [] "a*b" none
      = (.error (.CustomError "Project name contains invalid characters."), ⟨[], "/p"⟩, []) ∧
    Library.rename ⟨[("a", "/p/a")], "/p"⟩ "a" ".." none
      = (.error (.CustomError "This name is not allowed."), ⟨[("a", "/p/a")], "/p"⟩) := by
  have h := validator_rejections_and_mutation_guard
  exact ⟨h.2.2.2.2.2.2.1 ⟨[], "/p"⟩ [] "a*b"
      "Project name contains invalid characters." none (by decide) (by decide),
    h.2.2.2.2.2.2.2 ⟨[("a", "/p/a")], "/p"⟩ "a" ".."
      "This name is not allowed." none (by decide) (by decide) (by decide)⟩

/-! ### C4: the index after a successful rename -/

theorem swapRemove_perm (l : Index) (k : String) :
    (swapRemove l k).Perm (l.eraseP fun p => p.1 == k) := by
  induction l with
  | nil => simp [swapRemove]
  | cons x t ih =>
    by_cases h : x.1 = k
    · have h' : ((fun p : String × String => p.1 == k) x = true) := by simp [h]
      have herase : List.eraseP (fun p => p.1 == k) (x :: t) = t :=
        List.eraseP_cons_of_pos h'
      rw [herase]
      have hsw : swapRemove (x :: t) k
          = match t.getLast? with
            | none => []
            | some last => last :: t.dropLast := by
        simp [swapRemove, h]
      rw [hsw]
      cases hl : t.getLast? with
      | none =>
        have ht : t = [] := List.getLast?_eq_none_iff.1 hl
        simp [ht]
      | some last =>
        have ht : t ≠ [] := by
          intro he
          rw [he] at hl
          simp at hl
        have hlast : last = t.getLast ht := by
          rw [List.getLast?_eq_getLast t ht] at hl
          exact (Option.some.inj hl).symm
        have hp : (last :: t.dropLast).Perm (t.dropLast ++ [last]) :=
          (List.perm_append_singleton _ _).symm
        have hdl : t.dropLast ++ [last] = t := by
          rw [hlast]
          exact List.dropLast_concat_getLast ht
        rwa [hdl] at hp
    · have h' : ¬((fun p : String × String => p.1 == k) x = true) := by simp [h]
      have herase : List.eraseP (fun p => p.1 == k) (x :: t)
          = x :: List.eraseP (fun p => p.1 == k) t :=
        List.eraseP_cons_of_neg h'
      rw [herase]
      have hsw : swapRemove (x :: t) k = x :: swapRemove t k := by
        simp [swapRemove, h]
      rw [hsw]
      exact List.Perm.cons x ih

theorem containsKey_perm {X Y : Index} (h : X.Perm Y) (j : String) :
    containsKey X j = true ↔ containsKey Y j = true := by
  simp only [containsKey, List.any_eq_true]
  constructor
  · rintro ⟨p, hp, hpj⟩
    exact ⟨p, h.mem_iff.1 hp, hpj⟩
  · rintro ⟨p, hp, hpj⟩
    exact ⟨p, h.mem_iff.2 hp, hpj⟩

theorem containsKey_swapRemove_le (l : Index) (key j : String)
    (h : containsKey (swapRemove l key) j = true) : containsKey l j = true := by
  have he := (containsKey_perm (swapRemove_perm l key) j).1 h
  simp only [containsKey, List.any_eq_true] at he ⊢
  obtain ⟨p, hp, hpj⟩ := he
  exact ⟨p, List.mem_of_mem_eraseP hp, hpj⟩

theorem not_containsKey_eraseP (l : Index) (key : String) :
    (l.map Prod.fst).Nodup →
    containsKey (l.eraseP fun p => p.1 == key) key = false := by
  induction l with
  | nil => intro _; simp [containsKey]
  | cons x t ih =>
    intro hnd
    rw [List.map_cons, List.nodup_cons] at hnd
    by_cases hb : x.1 = key
    · have hb' : ((fun p : String × String => p.1 == key) x = true) := by simp [hb]
      have herase : List.eraseP (fun p => p.1 == key) (x :: t) = t :=
        List.eraseP_cons_of_pos hb'
      rw [herase]
      rw [Bool.eq_false_iff]
      intro hc
      exact hnd.1 (hb ▸ (containsKey_iff_mem_keys t key).1 hc)
    · have hb' : ¬((fun p : String × String => p.1 == key) x = true) := by simp [hb]
      have herase : List.eraseP (fun p => p.1 == key) (x :: t)
          = x :: List.eraseP (fun p => p.1 == key) t :=
        List.eraseP_cons_of_neg hb'
      rw [herase]
      have hfb : (x.1 == key) = false := by simp [hb]
      simp only [containsKey, List.any_cons, hfb, Bool.false_or]
      exact ih hnd.2

theorem containsKey_swapRemove (l : Index) (key j : String)
    (hnd : (l.map Prod.fst).Nodup) :
    containsKey (swapRemove l key) j = true ↔
      (containsKey l j = true ∧ j ≠ key) := by
  constructor
  · intro h
    refine ⟨containsKey_swapRemove_le l key j h, ?_⟩
    rintro rfl
    have he := (containsKey_perm (swapRemove_perm l j) j).1 h
    rw [not_containsKey_eraseP l j hnd] at he
    exact Bool.false_ne_true he
  · rintro ⟨hc, hne⟩
    apply (containsKey_perm (swapRemove_perm l key) j).2
    simp only [containsKey, List.any_eq_true] at hc ⊢
    obtain ⟨p, hp, hpj⟩ := hc
    have hpj' : p.1 = j := beq_iff_eq.1 hpj
    have hnp : ¬((fun q : String × String => q.1 == key) p = true) := by
      simp [hpj', hne]
    have hmem : p ∈ List.eraseP (fun q : String × String => q.1 == key) l ↔ p ∈ l :=
      List.mem_eraseP_of_neg hnp
    exact ⟨p, hmem.2 hp, hpj⟩

/-- C4 counterexample: renaming the first of three projects moves the
previously last entry into its slot (`swap_remove`), so the surviving
entries `b, c` come back as `c, b` — not in their previous relative
order as the claim states. -/
theorem rename_order_counterexample :
    (Library.rename ⟨[("a", "/p/a"), ("b", "/p/b"), ("c", "/p/c")], "/p"⟩ "a" "d" none).1
        = .ok () ∧
    (Library.rename ⟨[("a", "/p/a"), ("b", "/p/b"), ("c", "/p/c")], "/p"⟩ "a" "d" none).2.get_names
        = ["c", "b", "d"] ∧
    ["c", "b", "d"] ≠ ["b", "c", "d"] := by
  decide

/-- C4 (amended): after a successful `rename old new` on an index with
unique keys, `old` present and `new` absent, the index holds exactly the
previous entries with `old` replaced by `new` (mapping to
`base_path/new`, appended at the end); the surviving entries are ordered
as `swap_remove` leaves them — the previously last entry moves into the
slot of `old` — so their original relative order is not preserved in
general. -/
theorem rename_success_index (lib : Library) (old_name new_name : String) (os : OsOutcome)
    (hnd : (lib.projects.map Prod.fst).Nodup)
    (ho : lib.contains old_name = true) (hn : lib.contains new_name = false)
    (hs : (Library.rename lib old_name new_name os).1 = .ok ()) :
    (Library.rename lib old_name new_name os).2.projects
        = swapRemove lib.projects old_name ++ [(new_name, pathJoin lib.base_path new_name)] ∧
    (Library.rename lib old_name new_name os).2.get new_name
        = some (pathJoin lib.base_path new_name) ∧
    ∀ k, (Library.rename lib old_name new_name os).2.contains k = true ↔
          (k = new_name ∨ (lib.contains k = true ∧ k ≠ old_name)) := by
  simp only [Library.contains] at ho hn
  have hred : Library.rename lib old_name new_name os
      = (.ok (), { lib with projects := idxInsert (swapRemove lib.projects old_name) new_name (pathJoin lib.base_path new_name) }) := by
    unfold Library.rename at hs ⊢
    simp only [ho, hn, Bool.not_true, Bool.false_eq_true, if_false] at hs ⊢
    cases hv : validate_project_name new_name with
    | error msg => rw [hv] at hs; simp at hs
    | ok u =>
      rw [hv] at hs
      cases os with
      | none => rfl
      | some k => cases k <;> simp at hs
  have hnotin : containsKey (swapRemove lib.projects old_name) new_name = false := by
    rw [Bool.eq_false_iff]
    intro hC
    rw [containsKey_swapRemove_le lib.projects old_name new_name hC] at hn
    simp at hn
  have hform : idxInsert (swapRemove lib.projects old_name) new_name (pathJoin lib.base_path new_name)
      = swapRemove lib.projects old_name ++ [(new_name, pathJoin lib.base_path new_name)] :=
    idxInsert_of_not_contains _ _ _ hnotin
  refine ⟨by rw [hred]; exact hform, ?_, ?_⟩
  · rw [hred]
    simpa [Library.get] using
      getVal_idxInsert (swapRemove lib.projects old_name) new_name
        (pathJoin lib.base_path new_name)
  · intro k
    rw [hred]
    simp only [Library.contains, hform]
    constructor
    · intro h
      simp only [containsKey, List.any_append, Bool.or_eq_true] at h
      rcases h with h | h
      · exact Or.inr ((containsKey_swapRemove lib.projects old_name k hnd).1 h)
      · simp only [List.any_cons, List.any_nil, Bool.or_false, beq_iff_eq] at h
        exact Or.inl h.symm
    · intro h
      simp only [containsKey, List.any_append, Bool.or_eq_true]
      rcases h with rfl | ⟨hc, hne⟩
      · right
        simp
      · exact Or.inl ((containsKey_swapRemove lib.projects old_name k hnd).2 ⟨hc, hne⟩)

/-- Witness for the amended C4: after renaming `a` to `d` the entry `b`
survives, `a` is gone, and `d` maps to `base_path/d`. -/
theorem rename_success_index_witness :
    (Library.rename ⟨[("a", "/p/a"), ("b", "/p/b")], "/p"⟩ "a" "d" none).2.contains "b" = true ∧
    (Library.rename ⟨[("a", "/p/a"), ("b", "/p/b")], "/p"⟩ "a" "d" none).2.contains "a" = false ∧
    (Library.rename ⟨[("a", "/p/a"), ("b", "/p/b")], "/p"⟩ "a" "d" none).2.get "d"
      = some "/p/d" := by
  have h := rename_success_index ⟨[("a", "/p/a"), ("b", "/p/b")], "/p"⟩ "a" "d" none
    (by decide) (by decide) (by decide) (by decide)
  refine ⟨(h.2.2 "b").2 (Or.inr ⟨by decide, by decide⟩), ?_, by rw [h.2.1]; decide⟩
  rw [Bool.eq_false_iff]
  intro hc
  rcases (h.2.2 "a").1 hc with h1 | h2
  · exact absurd h1 (by decide)
  · exact h2.2 rfl

/-! ### C8: the construction scan -/

theorem containsKey_idxInsert_iff (l : Index) (k v n : String) :
    containsKey (idxInsert l k v) n = true ↔ (n = k ∨ containsKey l n = true) := by
  by_cases hc : containsKey l k = true
  · rw [containsKey_iff_mem_keys, keys_idxInsert, if_pos hc, ← containsKey_iff_mem_keys]
    constructor
    · exact Or.inr
    · rintro (rfl | h)
      · exact hc
      · exact h
  · rw [containsKey_iff_mem_keys, keys_idxInsert, if_neg hc, List.mem_append,
      List.mem_singleton, ← containsKey_iff_mem_keys]
    tauto

theorem is_valid_project_iff (e : DirEntry) (dh : Bool) :
    is_valid_project e dh = true ↔
      (e.isDir = true ∧ IGNORED_NAMES.contains e.name = false ∧
        (dh = true ∨ strStartsWith e.name "." = false)) := by
  unfold is_valid_project
  cases dh <;> cases hsw : strStartsWith e.name "." <;>
    simp [hsw, Bool.and_eq_true, Bool.not_eq_true']

theorem containsKey_scan_foldl (base : String) (dh : Bool) :
    ∀ (entries : List DirEntry) (acc : Index) (n : String),
      containsKey (entries.foldl
          (fun acc e =>
            if is_valid_project e dh then idxInsert acc e.name (pathJoin base e.name) else acc)
          acc) n = true ↔
        (containsKey acc n = true ∨
          ∃ e ∈ entries, e.name = n ∧ is_valid_project e dh = true) := by
  intro entries
  induction entries with
  | nil => intro acc n; simp
  | cons e t ih =>
    intro acc n
    simp only [List.foldl_cons]
    by_cases hv : is_valid_project e dh = true
    · rw [if_pos hv, ih, containsKey_idxInsert_iff]
      constructor
      · rintro ((rfl | h) | ⟨x, hx, hxn, hxv⟩)
        · exact Or.inr ⟨e, List.mem_cons_self e t, rfl, hv⟩
        · exact Or.inl h
        · exact Or.inr ⟨x, List.mem_cons_of_mem e hx, hxn, hxv⟩
      · rintro (h | ⟨x, hx, hxn, hxv⟩)
        · exact Or.inl (Or.inr h)
        · rcases List.mem_cons.1 hx with rfl | hxt
          · exact Or.inl (Or.inl hxn.symm)
          · exact Or.inr ⟨x, hxt, hxn, hxv⟩
    · rw [if_neg hv, ih]
      constructor
      · rintro (h | ⟨x, hx, hxn, hxv⟩)
        · exact Or.inl h
        · exact Or.inr ⟨x, List.mem_cons_of_mem e hx, hxn, hxv⟩
      · rintro (h | ⟨x, hx, hxn, hxv⟩)
        · exact Or.inl h
        · rcases List.mem_cons.1 hx with rfl | hxt
          · exact absurd hxv hv
          · exact Or.inr ⟨x, hxt, hxn, hxv⟩

theorem exists_valid_iff (entries : List DirEntry) (dh : Bool) (n : String) :
    (∃ e ∈ entries, e.name = n ∧ is_valid_project e dh = true) ↔
      (∃ e ∈ entries, e.name = n ∧ e.isDir = true ∧ IGNORED_NAMES.contains n = false ∧
        (dh = true ∨ strStartsWith n "." = false)) := by
  constructor
  · rintro ⟨e, he, rfl, hv⟩
    obtain ⟨h1, h2, h3⟩ := (is_valid_project_iff e dh).1 hv
    exact ⟨e, he, rfl, h1, h2, h3⟩
  · rintro ⟨e, he, rfl, h1, h2, h3⟩
    exact ⟨e, he, rfl, (is_valid_project_iff e dh).2 ⟨h1, h2, h3⟩⟩

/-- C8: the scan includes a name iff some directory entry carries it, is
a directory, is not system-excluded, and is shown under the hidden-entry
rule; names matching a kept `.ignore` line are then excluded regardless
of `display_hidden`; and the concrete roots of the claim scan to exactly
the listed names. -/
theorem collect_projects_spec :
    (∀ (base : String) (entries : List DirEntry) (dh : Bool) (ign : Option String) (n : String),
      containsKey (collect_projects base entries dh ign) n = true ↔
        ((∃ e ∈ entries, e.name = n ∧ e.isDir = true ∧ IGNORED_NAMES.contains n = false ∧
            (dh = true ∨ strStartsWith n "." = false)) ∧
          ∀ content, ign = some content → (get_ignored_paths content).contains n = false)) ∧
    (collect_projects "/r" [⟨"a", true⟩, ⟨".b", true⟩, ⟨"$RECYCLE.BIN", true⟩]
        false none).map Prod.fst = ["a"] ∧
    (collect_projects "/r" [⟨"a", true⟩, ⟨".b", true⟩, ⟨"$RECYCLE.BIN", true⟩]
        true none).map Prod.fst = ["a", ".b"] ∧
    (collect_projects "/r" [⟨"a", true⟩, ⟨"b", true⟩, ⟨"c", true⟩] false
        (some "a\n#comment\n\nb")).map Prod.fst = ["c"] := by
  refine ⟨?_, by decide, by decide, by decide⟩
  intro base entries dh ign n
  cases ign with
  | none =>
    rw [show collect_projects base entries dh none
        = entries.foldl
            (fun acc e =>
              if is_valid_project e dh then idxInsert acc e.name (pathJoin base e.name) else acc)
            [] from rfl]
    rw [containsKey_scan_foldl]
    simp only [containsKey, List.any_nil, Bool.false_eq_true, false_or]
    rw [exists_valid_iff]
    simp
  | some content =>
    rw [show collect_projects base entries dh (some content)
        = (entries.foldl
            (fun acc e =>
              if is_valid_project e dh then idxInsert acc e.name (pathJoin base e.name) else acc)
            []).filter (fun p => !(get_ignored_paths content).contains p.1) from rfl]
    rw [containsKey_filter
      (entries.foldl
        (fun acc e =>
          if is_valid_project e dh then idxInsert acc e.name (pathJoin base e.name) else acc)
        [])
      (fun s => !(get_ignored_paths content).contains s) n]
    rw [containsKey_scan_foldl]
    simp only [containsKey, List.any_nil, Bool.false_eq_true, false_or]
    rw [exists_valid_iff]
    constructor
    · rintro ⟨hex, hnotig⟩
      refine ⟨hex, ?_⟩
      intro c hc
      obtain rfl : content = c := Option.some.inj hc
      simpa [Bool.not_eq_true'] using hnotig
    · rintro ⟨hex, hig⟩
      refine ⟨hex, ?_⟩
      have := hig content rfl
      simpa using this

/-! ### C9: the name resolver implements the specified resolution order -/

/-- C9: `resolve_project_name` agrees everywhere with the resolution
order written in the specification (`resolve_name_spec`): the `-`
sentinel under recent tracking returns the recorded recent name without
consulting the known names; with autocomplete, an exact match is
returned unchanged, else the first case-insensitive prefix match —
immediately under always-accept, else only on an affirmative
confirmation — and `none` otherwise; with autocomplete off, the typed
token is returned unchanged. -/
theorem resolve_project_name_matches_spec :
    (∀ (typed : String) (cfg : ResolveConfig) (names : List String) (confirm : Bool),
      resolve_project_name typed cfg names confirm = resolve_name_spec typed cfg names confirm) ∧
    (∀ (names : List String) (ac aa confirm : Bool),
      resolve_project_name "-" ⟨true, "foo", ac, aa⟩ names confirm = some "foo") ∧
    resolve_project_name "fo" ⟨false, "", true, true⟩ ["foo", "bar"] false = some "foo" ∧
    resolve_project_name "fo" ⟨false, "", true, false⟩ ["foo", "bar"] true = some "foo" := by
  refine ⟨?_, ?_, by decide, by decide⟩
  · intro typed cfg names confirm
    unfold resolve_project_name resolve_name_spec autocomplete suggest_completion
    by_cases h1 : (typed == "-" && cfg.recent_enabled) = true
    · simp [h1]
    · have h1' : (typed == "-" && cfg.recent_enabled) = false := by simpa using h1
      simp only [h1', Bool.false_eq_true, if_false]
      by_cases h2 : cfg.autocomplete_enabled = true
      · simp only [h2, if_true]
        by_cases h3 : names.contains typed = true
        · rw [if_pos h3, if_pos h3]
        · rw [if_neg h3, if_neg h3]
          cases hf : names.find? (fun n => strStartsWith (asciiLower n) (asciiLower typed)) with
          | none => simp
          | some m => cases haa : cfg.always_accept <;> cases confirm <;> simp
      · have h2' : cfg.autocomplete_enabled = false := by simpa using h2
        simp [h2']
  · intro names ac aa confirm
    simp [resolve_project_name]

/-! ### C1, C2, C6: the template provisioning pipeline -/

/-- C1: evaluated at a template whose only command fails (exit 1) and
whose rollback delete is denied, the pipeline returns only
`CleanupFailed` wrapping the cleanup error — the triggering command
failure is dropped from the returned error, so it is masked, contrary to
the claim. -/
theorem handle_new_cleanup_error_masks_command_failure :
    handle_new ⟨[], "/p"⟩ [] "proj" (some "t") [("t", ["cmd1"])] "sh" none
        (fun _ => some (.NonZeroExitCode 1)) (some .permissionDenied)
      = (.error (.CleanupFailed (.IoError .permissionDenied)), ⟨[("proj", "/p/proj")], "/p"⟩,
          ["proj"], ["cmd1"]) ∧
    ∀ cmd e, (.error (.CleanupFailed (.IoError .permissionDenied)) : Except NewError Unit)
        ≠ .error (.CommandFailed cmd e) := by
  refine ⟨by decide, ?_⟩
  intro cmd e h
  simp at h

/-- C2 counterexample: with a missing template (or an empty shell) the
pipeline still creates the project directory first — afterwards the root
holds `proj` and the index lists it, although the claim says validation
precedes creation and nothing is created. -/
theorem handle_new_validation_after_create_counterexample :
    handle_new ⟨[], "/p"⟩ [] "proj" (some "tpl") [] "sh" none (fun _ => none) none
      = (.error (.TemplateNotFound "tpl"), ⟨[("proj", "/p/proj")], "/p"⟩, ["proj"], []) ∧
    handle_new ⟨[], "/p"⟩ [] "proj" (some "t") [("t", ["c"])] "" none (fun _ => none) none
      = (.error .ShellNotConfigured, ⟨[("proj", "/p/proj")], "/p"⟩, ["proj"], []) := by
  exact ⟨by decide, by decide⟩

/-- C2 (amended): `Library::create` runs before the template lookup and
the shell check: when the named template does not exist
(`TemplateNotFound`) or the shell program is empty
(`ShellNotConfigured`), `handle_new` fails only after the project
directory has been created — the directory stays on disk and its entry
stays in the index. -/
theorem handle_new_create_precedes_validation (lib : Library) (fs : List String)
    (name tname shell : String) (store : List (String × List String))
    (outcome : Nat → Option ProgramError) (delOs : OsOutcome)
    (hv : validate_project_name_cmd name = .ok ())
    (hvl : validate_project_name name = .ok ())
    (hfs : fs.contains name = false) :
    (get_template store tname = none →
      handle_new lib fs name (some tname) store shell none outcome delOs
        = (.error (.TemplateNotFound tname),
            { lib with projects := idxInsert lib.projects name (pathJoin lib.base_path name) },
            name :: fs, [])) ∧
    (∀ cmds, get_template store tname = some cmds → shell = "" →
      handle_new lib fs name (some tname) store shell none outcome delOs
        = (.error .ShellNotConfigured,
            { lib with projects := idxInsert lib.projects name (pathJoin lib.base_path name) },
            name :: fs, [])) := by
  have hmem : name ∉ fs := by simpa using hfs
  have hcreate : Library.create lib fs name none
      = (.ok (), { lib with projects := idxInsert lib.projects name (pathJoin lib.base_path name) },
          name :: fs) := by
    unfold Library.create
    simp [hmem, hvl]
  constructor
  · intro ht
    unfold handle_new
    simp [hv, hcreate, ht]
  · intro cmds ht hsh
    unfold handle_new
    simp [hv, hcreate, ht, hsh]

/-- Witness for the amended C2 at a concrete missing template. -/
theorem handle_new_create_precedes_validation_witness :
    handle_new ⟨[], "/q"⟩ [] "proj" (some "nope") [] "sh" none (fun _ => none) none
      = (.error (.TemplateNotFound "nope"), ⟨[("proj", "/q/proj")], "/q"⟩, ["proj"], []) := by
  have h := handle_new_create_precedes_validation ⟨[], "/q"⟩ [] "proj" "nope" "sh" []
    (fun _ => none) none (by decide) (by decide) (by decide)
  rw [h.1 (by decide)]
  decide

theorem run_template_first_failure (lib : Library) (fs : List String) (name : String) :
    ∀ (cmds : List String) (outcome : Nat → Option ProgramError) (i k : Nat)
      (e : ProgramError) (hk : k < cmds.length),
      (∀ j, j < k → outcome (i + j) = none) → outcome (i + k) = some e →
      run_template lib fs name cmds outcome none i
        = (.error (.CommandFailed (cmds.get ⟨k, hk⟩) e),
            { lib with projects := lib.projects.filter fun p => p.1 != name },
            fs.erase name, cmds.take (k + 1)) := by
  intro cmds
  induction cmds with
  | nil => intro outcome i k e hk; exact absurd hk (by simp)
  | cons c rest ih =>
    intro outcome i k e hk hpre he
    cases k with
    | zero =>
      have h0 : outcome i = some e := by simpa using he
      unfold run_template
      simp [h0, Library.delete]
    | succ q =>
      have h0 : outcome i = none := by simpa using hpre 0 (Nat.succ_pos q)
      have hpre' : ∀ j, j < q → outcome ((i + 1) + j) = none := by
        intro j hj
        have := hpre (j + 1) (Nat.succ_lt_succ hj)
        rwa [show i + (j + 1) = (i + 1) + j by omega] at this
      have he' : outcome ((i + 1) + q) = some e := by
        rwa [show i + (q + 1) = (i + 1) + q by omega] at he
      have hq : q < rest.length := by simpa using hk
      have hr := ih outcome (i + 1) q e hq hpre' he'
      unfold run_template
      simp [h0, hr]

/-- C6: within one template application the commands launch strictly
sequentially in template order — the launch trace is exactly the prefix
of the template up to and including the first failing command, so no
later command is launched — and with a successful rollback delete the
project directory created by this invocation is gone afterwards while
the error names the failing command. -/
theorem handle_new_fail_fast (lib : Library) (fs : List String)
    (name tname shell : String) (store : List (String × List String))
    (cmds : List String) (outcome : Nat → Option ProgramError) (k : Nat) (e : ProgramError)
    (hk : k < cmds.length)
    (hv : validate_project_name_cmd name = .ok ())
    (hvl : validate_project_name name = .ok ())
    (hfs : fs.contains name = false)
    (ht : get_template store tname = some cmds)
    (hsh : (shell == "") = false)
    (hpre : ∀ j, j < k → outcome j = none)
    (he : outcome k = some e) :
    (handle_new lib fs name (some tname) store shell none outcome none).1
        = .error (.CommandFailed (cmds.get ⟨k, hk⟩) e) ∧
    (handle_new lib fs name (some tname) store shell none outcome none).2.2.2
        = cmds.take (k + 1) ∧
    (handle_new lib fs name (some tname) store shell none outcome none).2.2.1 = fs ∧
    (handle_new lib fs name (some tname) store shell none outcome none).2.2.1.contains name
        = false := by
  have hmem : name ∉ fs := by simpa using hfs
  have hcreate : Library.create lib fs name none
      = (.ok (), { lib with projects := idxInsert lib.projects name (pathJoin lib.base_path name) },
          name :: fs) := by
    unfold Library.create
    simp [hmem, hvl]
  have hpre0 : ∀ j, j < k → outcome (0 + j) = none := by
    intro j hj
    simpa using hpre j hj
  have he0 : outcome (0 + k) = some e := by simpa using he
  have hrun := run_template_first_failure
    { lib with projects := idxInsert lib.projects name (pathJoin lib.base_path name) }
    (name :: fs) name cmds outcome 0 k e hk hpre0 he0
  have hstep : handle_new lib fs name (some tname) store shell none outcome none
      = run_template
          { lib with projects := idxInsert lib.projects name (pathJoin lib.base_path name) }
          (name :: fs) name cmds outcome none 0 := by
    unfold handle_new
    simp [hv, hcreate, ht, hsh]
  rw [hstep, hrun]
  refine ⟨rfl, rfl, ?_, ?_⟩
  · exact List.erase_cons_head name fs
  · rw [List.erase_cons_head name fs]
    exact hfs

/-- Witness for C6: a two-command template whose second command exits
non-zero — the trace is both commands in order, the error names `cmd2`,
and the project directory is gone. -/
theorem handle_new_fail_fast_witness :
    (handle_new ⟨[], "/p"⟩ [] "proj" (some "t") [("t", ["cmd1", "cmd2"])] "sh" none
        (fun j => if j = 1 then some (.NonZeroExitCode 2) else none) none).1
      = .error (.CommandFailed "cmd2" (.NonZeroExitCode 2)) ∧
    (handle_new ⟨[], "/p"⟩ [] "proj" (some "t") [("t", ["cmd1", "cmd2"])] "sh" none
        (fun j => if j = 1 then some (.NonZeroExitCode 2) else none) none).2.2.2
      = ["cmd1", "cmd2"] ∧
    (handle_new ⟨[], "/p"⟩ [] "proj" (some "t") [("t", ["cmd1", "cmd2"])] "sh" none
        (fun j => if j = 1 then some (.NonZeroExitCode 2) else none) none).2.2.1.contains "proj"
      = false := by
  have h := handle_new_fail_fast ⟨[], "/p"⟩ [] "proj" "t" "sh" [("t", ["cmd1", "cmd2"])]
    ["cmd1", "cmd2"] (fun j => if j = 1 then some (.NonZeroExitCode 2) else none) 1
    (.NonZeroExitCode 2) (by decide) (by decide) (by decide) (by decide) (by decide) (by decide)
    (by
      intro j hj
      have hj0 : j = 0 := Nat.lt_one_iff.1 hj
      subst hj0
      rfl)
    (by decide)
  refine ⟨?_, ?_, h.2.2.2⟩
  · rw [h.1]
    decide
  · rw [h.2.1]
    decide

end Kanri
